import Mathlib

/-!
Shallow embedding of `length.go` from the `jutil` package: the function
`Length` computes the byte length of the JSON encoding of an arbitrary
value without encoding it.  Go strings and byte slices are modelled as
lists of bytes (`List Nat`), Go's dynamic values as the inductive type
`Value`, and the `(n int, err error)` return convention as
`Except Err Nat`.
-/

namespace Jutil

/-- Errors produced by `Length`, mirroring the error values constructed in
`length.go`: `json.UnsupportedTypeError`, `json.UnsupportedValueError`,
the `fmt.Errorf("reflect: cannot call Interface ...")` errors, and errors
propagated verbatim from `MarshalJSON`/`MarshalText` calls. -/
inductive Err where
  | unsupportedType (typeName : String)
  | unsupportedValue (msg : String)
  | cannotInterface (msg : String)
  | delegated (msg : String)
  deriving DecidableEq, Repr

/-- A Go dynamic value, restricted to the shapes `Length` dispatches on.
Constructors mirror the cases of the type switch in `Length` and of the
kind switch in `jsonLenV`:

* `vnull` — the nil interface value;
* `vbool`, `vint`, `vuint` — booleans and the signed/unsigned integer
  widths (all widths are converted to `int64`/`uint64` by the source
  before measuring, so one constructor each suffices);
* `vstring`, `vbytes` — `string` and `[]byte`, as byte lists;
* `vmapSI` — a `map[string]interface{}` given by its entry list (Go map
  iteration order is unspecified, so the list order stands for one
  traversal order);
* `vslice` — a `[]interface{}`;
* `vcustom` — a value of a user type carrying the optional capabilities
  checked by the type switch, in source order: `Lengther`, `json.Number`,
  `json.Marshaler` (result of calling `MarshalJSON`), and
  `encoding.TextMarshaler` (result of calling `MarshalText`);
* `vstruct` — a struct reached through reflection, each field given as
  (encoded name, omitempty flag, value), in the order produced by
  `LookupStruct`;
* `vmapRefl` — a map with non-`map[string]interface{}` type reached
  through reflection, as a key/value entry list;
* `varray` — an array or a non-`[]byte`, non-`[]interface{}` slice
  reached through reflection;
* `vptr` — a pointer or interface value (`none` = nil);
* `vunsupported` — a value whose reflect kind falls into the `default`
  branch of `jsonLenV` (func, chan, complex, ...), tagged with its type
  name. -/
inductive Value where
  | vnull
  | vbool (b : Bool)
  | vint (i : Int)
  | vuint (u : Nat)
  | vstring (s : List Nat)
  | vbytes (b : List Nat)
  | vmapSI (entries : List (List Nat × Value))
  | vslice (elems : List Value)
  | vcustom (lengther : Option Nat) (number : Option (List Nat))
      (marshalJSON : Option (Except Err (List Nat)))
      (marshalText : Option (Except Err (List Nat)))
  | vstruct (fields : List (List Nat × Bool × Value))
  | vmapRefl (entries : List (Value × Value))
  | varray (elems : List Value)
  | vptr (inner : Option Value)
  | vunsupported (typeName : String)

/-- `jsonLenNull` in `length.go`: the literal `null` is 4 bytes. -/
def jsonLenNull : Nat := 4

/-- `jsonLenBool` in `length.go`: `true` is 4 bytes, `false` is 5. -/
def jsonLenBool (v : Bool) : Nat :=
  if v then 4 else 5

/-- The digit-counting loop shared by `jsonLenInt` and `jsonLenUint`:
`for v != 0 { v /= 10; n++ }`.  Go's integer division truncates toward
zero, so on a negative `int64` the loop runs the same number of times as
on its absolute value; we count on the absolute value directly. -/
def uintDigitCount : Nat → Nat
  | 0 => 0
  | n + 1 => uintDigitCount ((n + 1) / 10) + 1

/-- `jsonLenInt` in `length.go`: 1 for zero, otherwise one byte per
decimal digit plus one for the minus sign when negative. -/
def jsonLenInt (v : Int) : Nat :=
  if v = 0 then 1
  else (if v < 0 then 1 else 0) + uintDigitCount v.natAbs

/-- `jsonLenUint` in `length.go`: 1 for zero, otherwise one byte per
decimal digit. -/
def jsonLenUint (v : Nat) : Nat :=
  if v = 0 then 1 else uintDigitCount v

/-- The bytes of the constant `escapedBytes = "/\"\\\n\t\r\v\b\f"` used
by the short-string scan in `jsonLenString`. -/
def escapedBytes : List Nat := [47, 34, 92, 10, 9, 13, 11, 8, 12]

/-- The byte set of the `switch` in the slow path of `jsonLenString`:
`'\n', '\t', '\r', '\v', '\b', '\f', '\\', '/', '"'`. -/
def isEscapedByte (b : Nat) : Bool :=
  b == 10 || b == 9 || b == 13 || b == 11 || b == 8 || b == 12 ||
    b == 92 || b == 47 || b == 34

/-- The `slowPath` label of `jsonLenString`: count the escapable bytes,
then return that count plus 2 quotes plus the byte length. -/
def jsonLenStringSlow (s : List Nat) : Nat :=
  s.countP isEscapedByte + 2 + s.length

/-- `jsonLenString` in `length.go`.  Strings shorter than 100 bytes are
first scanned for any byte of `escapedBytes` (with dedicated cases for
lengths 0 and 1); when none is present the result is `2 + len(s)`
without the counting pass, otherwise control falls through to the slow
path.  Strings of 100 bytes or more always take the slow path. -/
def jsonLenString (s : List Nat) : Nat :=
  if s.length < 100 then
    match s with
    | [] => 2 + s.length
    | [c] =>
      if escapedBytes.any (fun e => c == e) then jsonLenStringSlow s
      else 2 + s.length
    | _ =>
      if escapedBytes.any (fun e => s.contains e) then jsonLenStringSlow s
      else 2 + s.length
  else jsonLenStringSlow s

/-- `jsonLenBytes` in `length.go`: byte slices are measured as base64
text in quotes, `2 + len(b)*4/3` with integer (floor) division. -/
def jsonLenBytes (b : List Nat) : Nat :=
  2 + b.length * 4 / 3

/-- Modelled from the spec: the emptiness test `isEmptyValue` is called
by `jsonLenStruct` but defined outside the provided source file.  Per
§4.3 of the spec, "Empty" is type-dependent: numeric zero, empty text,
absent optional (nil pointer/interface), empty container. -/
def isEmptyValue : Value → Bool
  | .vnull => true
  | .vint i => i == 0
  | .vuint u => u == 0
  | .vstring s => s.isEmpty
  | .vbytes b => b.isEmpty
  | .vmapSI l => l.isEmpty
  | .vslice l => l.isEmpty
  | .vmapRefl l => l.isEmpty
  | .varray l => l.isEmpty
  | .vptr o => o.isNone
  | _ => false

mutual

/-- `Length` in `length.go`: the dispatcher.  The cases appear in the
order of the source's type switch (nil, bool, the integer widths, the
float widths, string, `[]byte`, `map[string]interface{}`,
`[]interface{}`, `Lengther`, `json.Number`, `json.Marshaler`,
`encoding.TextMarshaler`), with the `default` branch's reflection
fallback `jsonLenV` inlined as the constructors `vstruct`, `vmapRefl`,
`varray`, `vptr` and `vunsupported`.  Floats are not modelled: no
claim concerns `jsonLenFloat`. -/
def Length : Value → Except Err Nat
  | .vnull => .ok jsonLenNull
  | .vbool b => .ok (jsonLenBool b)
  | .vint i => .ok (jsonLenInt i)
  | .vuint u => .ok (jsonLenUint u)
  | .vstring s => .ok (jsonLenString s)
  | .vbytes b => .ok (jsonLenBytes b)
  | .vmapSI m => jsonLenMapStringInterface m
  | .vslice s => jsonLenSliceInterface s
  | .vcustom lengther number marshalJSON marshalText =>
    match lengther with
    | some k => .ok k
    | none =>
      match number with
      | some s => .ok s.length
      | none =>
        match marshalJSON with
        | some r => r.map List.length
        | none =>
          match marshalText with
          | some r => r.map jsonLenString
          | none => .error (.unsupportedType "custom")
  | .vstruct fields => jsonLenStruct fields
  | .vmapRefl m => jsonLenMap m
  | .varray a => jsonLenArray a
  | .vptr o =>
    match o with
    | none => .ok jsonLenNull
    | some w => Length w
  | .vunsupported t => .error (.unsupportedType t)

/-- `jsonLenSliceInterface` in `length.go`: sum the element lengths
(aborting on the first failure), then add `len(s) - 1` separators when
`len(s) > 1`, then 2 brackets. -/
def jsonLenSliceInterface (s : List Value) : Except Err Nat := do
  let n ← sliceSum s
  pure (n + (if 1 < s.length then s.length - 1 else 0) + 2)

/-- The accumulation loop of `jsonLenSliceInterface`: `n += Length(v)`
for each element, returning the first error. -/
def sliceSum : List Value → Except Err Nat
  | [] => .ok 0
  | v :: rest => do
    let c ← Length v
    let n ← sliceSum rest
    pure (c + n)

/-- `jsonLenMapStringInterface` in `length.go`: for each entry add
`jsonLenString(k) + Length(v) + 1` (aborting on the first failure), then
add `len(m) - 1` separators when `len(m) > 1`, then 2 braces. -/
def jsonLenMapStringInterface (m : List (List Nat × Value)) :
    Except Err Nat := do
  let n ← mapSISum m
  pure (n + (if 1 < m.length then m.length - 1 else 0) + 2)

/-- The accumulation loop of `jsonLenMapStringInterface`. -/
def mapSISum : List (List Nat × Value) → Except Err Nat
  | [] => .ok 0
  | (k, v) :: rest => do
    let c ← Length v
    let n ← mapSISum rest
    pure (jsonLenString k + c + 1 + n)

/-- `jsonLenArray` in `length.go`: one separator before every element
except the first (`if i != 0 { n++ }`), plus each element's length
(aborting on the first failure), plus 2 brackets. -/
def jsonLenArray (a : List Value) : Except Err Nat := do
  let n ← arrayGo true a
  pure (n + 2)

/-- The loop of `jsonLenArray`; `first` tracks whether `i == 0`. -/
def arrayGo (first : Bool) : List Value → Except Err Nat
  | [] => .ok 0
  | v :: rest => do
    let sep : Nat := if first then 0 else 1
    let c ← Length v
    let n ← arrayGo false rest
    pure (sep + c + n)

/-- `jsonLenMap` in `length.go`: for each entry one separator when not
first, then `Length(key) + Length(value) + 1` — the key is measured by
full dispatch, not by the string formula — aborting on the first
failure; plus 2 braces. -/
def jsonLenMap (m : List (Value × Value)) : Except Err Nat := do
  let n ← mapGo true m
  pure (n + 2)

/-- The loop of `jsonLenMap`; `first` tracks whether `i == 0`. -/
def mapGo (first : Bool) : List (Value × Value) → Except Err Nat
  | [] => .ok 0
  | (k, v) :: rest => do
    let sep : Nat := if first then 0 else 1
    let c1 ← Length k
    let c2 ← Length v
    let n ← mapGo false rest
    pure (sep + c1 + c2 + 1 + n)

/-- `jsonLenStruct` in `length.go`: iterate the fields in the order
produced by `LookupStruct`, skip a field when its omitempty flag is set
and its value is empty, and otherwise add a separator when the running
total is nonzero (`if n != 0 { n++ }`) followed by
`jsonLenString(name) + Length(value) + 1`; finally add 2 braces. -/
def jsonLenStruct (fields : List (List Nat × Bool × Value)) :
    Except Err Nat := do
  let n ← structGo 0 fields
  pure (n + 2)

/-- The loop of `jsonLenStruct`, threading the running total `n` through
because the separator test reads it. -/
def structGo (n : Nat) : List (List Nat × Bool × Value) → Except Err Nat
  | [] => .ok n
  | (name, omitempty, v) :: rest =>
    if omitempty && isEmptyValue v then structGo n rest
    else do
      let c ← Length v
      let n := if n ≠ 0 then n + 1 else n
      structGo (n + jsonLenString name + c + 1) rest

end

/-- The length carried by an `ok` result, 0 on errors; only used under
hypotheses that rule errors out. -/
def getOk : Except Err Nat → Nat
  | .ok n => n
  | .error _ => 0

/-- Per-entry contribution of a `map[string]interface{}` entry:
quoted key + value length + colon. -/
def entryLenSI (e : List Nat × Value) : Nat :=
  jsonLenString e.1 + getOk (Length e.2) + 1

/-- Per-entry contribution of a reflected map entry: key length by full
dispatch + value length + colon. -/
def entryLenMap (e : Value × Value) : Nat :=
  getOk (Length e.1) + getOk (Length e.2) + 1

/-- Per-field contribution of an emitted struct field: quoted key +
colon + value length. -/
def structContrib (f : List Nat × Bool × Value) : Nat :=
  jsonLenString f.1 + 1 + getOk (Length f.2.2)

/-- A struct field survives the omitempty test of `jsonLenStruct`. -/
def keepField (f : List Nat × Bool × Value) : Bool :=
  !(f.2.1 && isEmptyValue f.2.2)

@[simp] theorem ok_bind {α β : Type} (a : α) (f : α → Except Err β) :
    (Except.ok a >>= f) = f a := rfl

@[simp] theorem error_bind {α β : Type} (e : Err) (f : α → Except Err β) :
    ((Except.error e : Except Err α) >>= f) = .error e := rfl

@[simp] theorem pure_eq_ok {α : Type} (a : α) :
    (pure a : Except Err α) = .ok a := rfl

@[simp] theorem exceptMap_ok {α β : Type} (f : α → β) (a : α) :
    (Except.ok a : Except Err α).map f = .ok (f a) := rfl

@[simp] theorem exceptMap_error {α β : Type} (f : α → β) (e : Err) :
    (Except.error e : Except Err α).map f = (.error e : Except Err β) := rfl

theorem getOk_of_ok {v : Value} {c : Nat} (h : Length v = .ok c) :
    getOk (Length v) = c := by
  rw [h]; rfl

/-- The fast path's byte-by-byte test against `escapedBytes` agrees with
the slow path's `switch` (both enumerate the same nine bytes). -/
theorem mem_escapedBytes_iff (b : Nat) :
    (escapedBytes.any fun e => b == e) = isEscapedByte b := by
  simp only [escapedBytes, isEscapedByte, List.any_cons, List.any_nil,
    Bool.or_false]
  rw [Bool.eq_iff_iff]
  simp only [Bool.or_eq_true, beq_iff_eq]
  tauto

/-- The fast path's `strings.IndexByte` scan over `escapedBytes` finds a
byte exactly when the string has a byte satisfying the slow path's
escape test. -/
theorem any_contains_iff (s : List Nat) :
    (escapedBytes.any fun e => s.contains e) = s.any isEscapedByte := by
  rw [Bool.eq_iff_iff]
  simp only [List.any_eq_true, List.contains_iff_exists_mem_beq, beq_iff_eq]
  constructor
  · rintro ⟨e, he, b, hb, hbe⟩
    refine ⟨b, hb, ?_⟩
    rw [← mem_escapedBytes_iff]
    simp only [List.any_eq_true, beq_iff_eq]
    exact ⟨e, he, hbe.symm⟩
  · rintro ⟨b, hb, hbe⟩
    rw [← mem_escapedBytes_iff] at hbe
    simp only [List.any_eq_true, beq_iff_eq] at hbe
    obtain ⟨e, he, hb'⟩ := hbe
    exact ⟨e, he, b, hb, hb'.symm⟩

/-- Both paths of `jsonLenString` compute quotes + byte count + one per
escapable byte. -/
theorem jsonLenString_eq (s : List Nat) :
    jsonLenString s = 2 + s.length + s.countP isEscapedByte := by
  have slow : jsonLenStringSlow s = 2 + s.length + s.countP isEscapedByte := by
    unfold jsonLenStringSlow; omega
  rcases s with _ | ⟨c, _ | ⟨d, t⟩⟩
  · simp [jsonLenString]
  · simp only [jsonLenString, List.length_cons, List.length_nil,
      mem_escapedBytes_iff c]
    by_cases hc : isEscapedByte c
    · simp [hc, slow]
    · simp [hc, List.countP_cons, List.countP_nil]
  · simp only [jsonLenString, any_contains_iff]
    by_cases h100 : (c :: d :: t).length < 100
    · simp only [h100, if_true]
      by_cases hany : (c :: d :: t).any isEscapedByte
      · simp [hany, slow]
      · simp only [hany, Bool.false_eq_true, if_false]
        have hz : (c :: d :: t).countP isEscapedByte = 0 := by
          rw [List.countP_eq_zero]
          intro x hx
          simp only [List.any_eq_true, not_exists, not_and] at hany
          intro hxe
          exact absurd hxe (by simpa using hany x hx)
        omega
    · simp [h100, slow]

/-- The division loop of `jsonLenInt`/`jsonLenUint` counts exactly the
decimal digits. -/
theorem uintDigitCount_eq (n : Nat) (h : n ≠ 0) :
    uintDigitCount n = (Nat.digits 10 n).length := by
  induction n using Nat.strong_induction_on with
  | _ n ih =>
    match n, h with
    | m + 1, _ =>
      rw [uintDigitCount, Nat.digits_def' (by norm_num : 1 < 10) (Nat.succ_pos m)]
      simp only [List.length_cons]
      by_cases hz : (m + 1) / 10 = 0
      · rw [hz]
        simp [uintDigitCount]
      · rw [ih ((m + 1) / 10) (Nat.div_lt_self (Nat.succ_pos m) (by norm_num)) hz]

theorem sum_map_one_add {α : Type} (g : α → Nat) (l : List α) :
    (l.map fun x => 1 + g x).sum = l.length + (l.map g).sum := by
  induction l with
  | nil => simp
  | cons a t ih => simp [ih]; omega

/-- `sliceSum` on an all-measurable list returns the sum of the element
lengths. -/
theorem sliceSum_ok (l : List Value)
    (h : ∀ v ∈ l, ∃ c, Length v = .ok c) :
    sliceSum l = .ok ((l.map fun v => getOk (Length v)).sum) := by
  induction l with
  | nil => simp [sliceSum]
  | cons v t ih =>
    obtain ⟨c, hc⟩ := h v (List.mem_cons_self v t)
    rw [sliceSum, hc, ih fun w hw => h w (List.mem_cons_of_mem v hw)]
    simp [getOk_of_ok hc]

/-- `sliceSum` propagates the first failing element's error verbatim. -/
theorem sliceSum_error (pre post : List Value) (bad : Value) (e : Err)
    (he : Length bad = .error e)
    (h : ∀ v ∈ pre, ∃ c, Length v = .ok c) :
    sliceSum (pre ++ bad :: post) = .error e := by
  induction pre with
  | nil => rw [List.nil_append, sliceSum, he]; rfl
  | cons v t ih =>
    obtain ⟨c, hc⟩ := h v (List.mem_cons_self v t)
    rw [List.cons_append, sliceSum, hc,
      ih fun w hw => h w (List.mem_cons_of_mem v hw)]
    rfl

/-- `arrayGo` on an all-measurable list returns the element-length sum
plus one separator per element except, when `first` is set, the first. -/
theorem arrayGo_ok (first : Bool) (l : List Value)
    (h : ∀ v ∈ l, ∃ c, Length v = .ok c) :
    arrayGo first l = .ok ((l.map fun v => getOk (Length v)).sum +
      (if first then l.length - 1 else l.length)) := by
  induction l generalizing first with
  | nil => cases first <;> simp [arrayGo]
  | cons v t ih =>
    obtain ⟨c, hc⟩ := h v (List.mem_cons_self v t)
    rw [arrayGo, hc]
    simp only [ok_bind]
    rw [ih false fun w hw => h w (List.mem_cons_of_mem v hw)]
    simp only [ok_bind, pure_eq_ok, Except.ok.injEq, List.map_cons,
      List.sum_cons, List.length_cons, getOk_of_ok hc]
    cases first <;> simp <;> omega

/-- `arrayGo` propagates the first failing element's error verbatim. -/
theorem arrayGo_error (first : Bool) (pre post : List Value) (bad : Value)
    (e : Err) (he : Length bad = .error e)
    (h : ∀ v ∈ pre, ∃ c, Length v = .ok c) :
    arrayGo first (pre ++ bad :: post) = .error e := by
  induction pre generalizing first with
  | nil => rw [List.nil_append, arrayGo, he]; rfl
  | cons v t ih =>
    obtain ⟨c, hc⟩ := h v (List.mem_cons_self v t)
    rw [List.cons_append, arrayGo, hc]
    simp only [ok_bind]
    rw [ih false fun w hw => h w (List.mem_cons_of_mem v hw)]
    rfl

/-- `mapSISum` on all-measurable entries returns the per-entry sum. -/
theorem mapSISum_ok (l : List (List Nat × Value))
    (h : ∀ p ∈ l, ∃ c, Length p.2 = .ok c) :
    mapSISum l = .ok ((l.map entryLenSI).sum) := by
  induction l with
  | nil => simp [mapSISum]
  | cons p t ih =>
    obtain ⟨k, v⟩ := p
    obtain ⟨c, hc⟩ := h (k, v) (List.mem_cons_self _ t)
    rw [mapSISum, hc, ih fun w hw => h w (List.mem_cons_of_mem _ hw)]
    simp [entryLenSI, getOk_of_ok hc]

/-- When `mapSISum` succeeds, every entry was measurable and the result
is the per-entry sum. -/
theorem mapSISum_eq_ok (l : List (List Nat × Value)) (n : Nat)
    (h : mapSISum l = .ok n) :
    (∀ p ∈ l, ∃ c, Length p.2 = .ok c) ∧ n = (l.map entryLenSI).sum := by
  induction l generalizing n with
  | nil =>
    rw [mapSISum] at h
    refine ⟨by simp, ?_⟩
    simpa using (Except.ok.injEq _ _).mp h.symm
  | cons p t ih =>
    obtain ⟨k, v⟩ := p
    rw [mapSISum] at h
    cases hv : Length v with
    | error e => rw [hv] at h; simp at h
    | ok c =>
      rw [hv] at h
      simp only [ok_bind] at h
      cases ht : mapSISum t with
      | error e => rw [ht] at h; simp at h
      | ok m =>
        rw [ht] at h
        simp only [ok_bind, pure_eq_ok, Except.ok.injEq] at h
        obtain ⟨hall, hm⟩ := ih m ht
        refine ⟨?_, ?_⟩
        · intro p hp
          rcases List.mem_cons.mp hp with rfl | hp'
          · exact ⟨c, hv⟩
          · exact hall p hp'
        · simp only [List.map_cons, List.sum_cons, entryLenSI,
            getOk_of_ok hv, ← h, hm]

/-- `mapSISum` propagates the first failing value's error verbatim. -/
theorem mapSISum_error (pre post : List (List Nat × Value))
    (k : List Nat) (bad : Value) (e : Err) (he : Length bad = .error e)
    (h : ∀ p ∈ pre, ∃ c, Length p.2 = .ok c) :
    mapSISum (pre ++ (k, bad) :: post) = .error e := by
  induction pre with
  | nil => rw [List.nil_append, mapSISum, he]; rfl
  | cons p t ih =>
    obtain ⟨k', v⟩ := p
    obtain ⟨c, hc⟩ := h (k', v) (List.mem_cons_self _ t)
    rw [List.cons_append, mapSISum, hc,
      ih fun w hw => h w (List.mem_cons_of_mem _ hw)]
    rfl

/-- `mapGo` on entries whose keys and values all measure returns the
per-entry sum plus one separator per entry except, when `first` is set,
the first. -/
theorem mapGo_ok (first : Bool) (l : List (Value × Value))
    (h : ∀ p ∈ l, (∃ c, Length p.1 = .ok c) ∧ (∃ c, Length p.2 = .ok c)) :
    mapGo first l = .ok ((l.map entryLenMap).sum +
      (if first then l.length - 1 else l.length)) := by
  induction l generalizing first with
  | nil => cases first <;> simp [mapGo]
  | cons p t ih =>
    obtain ⟨k, v⟩ := p
    obtain ⟨⟨c1, hc1⟩, ⟨c2, hc2⟩⟩ := h (k, v) (List.mem_cons_self _ t)
    rw [mapGo, hc1]
    simp only [ok_bind]
    rw [hc2]
    simp only [ok_bind]
    rw [ih false fun w hw => h w (List.mem_cons_of_mem _ hw)]
    simp only [ok_bind, pure_eq_ok, Except.ok.injEq, List.map_cons,
      List.sum_cons, List.length_cons, entryLenMap,
      getOk_of_ok hc1, getOk_of_ok hc2]
    cases first <;> simp <;> omega

/-- When `mapGo` succeeds, every key and value was measurable and the
result is the per-entry sum plus the separators. -/
theorem mapGo_eq_ok (first : Bool) (l : List (Value × Value)) (n : Nat)
    (h : mapGo first l = .ok n) :
    (∀ p ∈ l, (∃ c, Length p.1 = .ok c) ∧ (∃ c, Length p.2 = .ok c)) ∧
      n = (l.map entryLenMap).sum +
        (if first then l.length - 1 else l.length) := by
  induction l generalizing first n with
  | nil =>
    rw [mapGo] at h
    refine ⟨by simp, ?_⟩
    cases first <;> simpa using (Except.ok.injEq _ _).mp h.symm
  | cons p t ih =>
    obtain ⟨k, v⟩ := p
    rw [mapGo] at h
    cases hk : Length k with
    | error e => rw [hk] at h; simp at h
    | ok c1 =>
      rw [hk] at h
      simp only [ok_bind] at h
      cases hv : Length v with
      | error e => rw [hv] at h; simp at h
      | ok c2 =>
        rw [hv] at h
        simp only [ok_bind] at h
        cases ht : mapGo false t with
        | error e => rw [ht] at h; simp at h
        | ok m =>
          rw [ht] at h
          simp only [ok_bind, pure_eq_ok, Except.ok.injEq] at h
          obtain ⟨hall, hm⟩ := ih false m ht
          refine ⟨?_, ?_⟩
          · intro p hp
            rcases List.mem_cons.mp hp with rfl | hp'
            · exact ⟨⟨c1, hk⟩, ⟨c2, hv⟩⟩
            · exact hall p hp'
          · simp only [List.map_cons, List.sum_cons, List.length_cons,
              entryLenMap, getOk_of_ok hk, getOk_of_ok hv, ← h, hm]
            cases first <;> simp <;> omega

/-- `mapGo` propagates the first failure among keys and values
verbatim: a failing key aborts before its value is measured. -/
theorem mapGo_error_key (first : Bool) (pre post : List (Value × Value))
    (bad w : Value) (e : Err) (he : Length bad = .error e)
    (h : ∀ p ∈ pre, (∃ c, Length p.1 = .ok c) ∧ (∃ c, Length p.2 = .ok c)) :
    mapGo first (pre ++ (bad, w) :: post) = .error e := by
  induction pre generalizing first with
  | nil => rw [List.nil_append, mapGo, he]; rfl
  | cons p t ih =>
    obtain ⟨k, v⟩ := p
    obtain ⟨⟨c1, hc1⟩, ⟨c2, hc2⟩⟩ := h (k, v) (List.mem_cons_self _ t)
    rw [List.cons_append, mapGo, hc1]
    simp only [ok_bind]
    rw [hc2]
    simp only [ok_bind]
    rw [ih false fun p hp => h p (List.mem_cons_of_mem _ hp)]
    rfl

theorem keepField_iff (f : List Nat × Bool × Value) :
    keepField f = true ↔ (f.2.1 && isEmptyValue f.2.2) = false := by
  unfold keepField
  cases f.2.1 && isEmptyValue f.2.2 <;> simp

/-- `mapGo` propagates a failing value's error verbatim once its key
has measured successfully. -/
theorem mapGo_error_value (first : Bool) (pre post : List (Value × Value))
    (goodKey bad : Value) (ck : Nat) (e : Err)
    (hk : Length goodKey = .ok ck) (he : Length bad = .error e)
    (h : ∀ p ∈ pre, (∃ c, Length p.1 = .ok c) ∧ (∃ c, Length p.2 = .ok c)) :
    mapGo first (pre ++ (goodKey, bad) :: post) = .error e := by
  induction pre generalizing first with
  | nil =>
    rw [List.nil_append, mapGo, hk]
    simp only [ok_bind]
    rw [he]
    rfl
  | cons p t ih =>
    obtain ⟨k, v⟩ := p
    obtain ⟨⟨c1, hc1⟩, ⟨c2, hc2⟩⟩ := h (k, v) (List.mem_cons_self _ t)
    rw [List.cons_append, mapGo, hc1]
    simp only [ok_bind]
    rw [hc2]
    simp only [ok_bind]
    rw [ih false fun p hp => h p (List.mem_cons_of_mem _ hp)]
    rfl

/-- Skipped fields (omitempty set and value empty) are invisible to
`structGo`: filtering them out of the field list leaves the result
unchanged. -/
theorem structGo_filter (n : Nat) (fields : List (List Nat × Bool × Value)) :
    structGo n fields = structGo n (fields.filter keepField) := by
  induction fields generalizing n with
  | nil => simp
  | cons f t ih =>
    obtain ⟨name, omitempty, v⟩ := f
    by_cases hk : keepField (name, omitempty, v)
    · rw [List.filter_cons_of_pos hk]
      have hskip : (omitempty && isEmptyValue v) = false := (keepField_iff _).mp hk
      rw [structGo, structGo, hskip]
      simp only [Bool.false_eq_true, if_false]
      cases hv : Length v with
      | error e => rfl
      | ok c => simp only [ok_bind]; exact ih _
    · rw [List.filter_cons_of_neg hk]
      have hskip : (omitempty && isEmptyValue v) = true := by
        unfold keepField at hk
        simpa using hk
      rw [structGo, hskip]
      simp only [if_true]
      exact ih n

/-- `structGo` from a nonzero total on all-kept, all-measurable fields:
every field adds a separator plus its contribution. -/
theorem structGo_pos (n : Nat) (fields : List (List Nat × Bool × Value))
    (hn : n ≠ 0)
    (hkeep : ∀ f ∈ fields, keepField f)
    (h : ∀ f ∈ fields, ∃ c, Length f.2.2 = .ok c) :
    structGo n fields = .ok (n + (fields.map fun f => 1 + structContrib f).sum) := by
  induction fields generalizing n with
  | nil => simp [structGo]
  | cons f t ih =>
    obtain ⟨name, omitempty, v⟩ := f
    have hskip : (omitempty && isEmptyValue v) = false :=
      (keepField_iff _).mp (hkeep (name, omitempty, v) (List.mem_cons_self _ t))
    obtain ⟨c, hc⟩ := h (name, omitempty, v) (List.mem_cons_self _ t)
    rw [structGo, hskip]
    simp only [Bool.false_eq_true, if_false]
    rw [hc]
    simp only [ok_bind, if_pos hn]
    rw [ih (n + 1 + jsonLenString name + c + 1) (by omega)
      (fun f hf => hkeep f (List.mem_cons_of_mem _ hf))
      (fun f hf => h f (List.mem_cons_of_mem _ hf))]
    simp only [Except.ok.injEq, List.map_cons, List.sum_cons,
      structContrib, getOk_of_ok hc]
    omega

/-- `jsonLenString` is at least the two quote bytes, so an emitted
field's contribution is never zero. -/
theorem jsonLenString_pos (s : List Nat) : 2 ≤ jsonLenString s := by
  rw [jsonLenString_eq]
  omega

/-- `structGo` from zero on all-kept, all-measurable fields: the total
is the contribution sum plus one separator between consecutive fields. -/
theorem structGo_zero (fields : List (List Nat × Bool × Value))
    (hkeep : ∀ f ∈ fields, keepField f)
    (h : ∀ f ∈ fields, ∃ c, Length f.2.2 = .ok c) :
    structGo 0 fields = .ok ((fields.map structContrib).sum +
      (fields.length - 1)) := by
  cases fields with
  | nil => simp [structGo]
  | cons f t =>
    obtain ⟨name, omitempty, v⟩ := f
    have hskip : (omitempty && isEmptyValue v) = false :=
      (keepField_iff _).mp (hkeep (name, omitempty, v) (List.mem_cons_self _ t))
    obtain ⟨c, hc⟩ := h (name, omitempty, v) (List.mem_cons_self _ t)
    rw [structGo, hskip]
    simp only [Bool.false_eq_true, if_false]
    rw [hc]
    simp only [ok_bind]
    have hpos : 0 + jsonLenString name + c + 1 ≠ 0 := by
      have := jsonLenString_pos name
      omega
    rw [show (if (0 : Nat) ≠ 0 then (0 : Nat) + 1 else 0) = 0 by norm_num]
    rw [structGo_pos _ t hpos
      (fun f hf => hkeep f (List.mem_cons_of_mem _ hf))
      (fun f hf => h f (List.mem_cons_of_mem _ hf))]
    simp only [Except.ok.injEq, List.map_cons, List.sum_cons, List.length_cons]
    rw [sum_map_one_add]
    have hcontrib : structContrib (name, omitempty, v) = jsonLenString name + 1 + c := by
      simp [structContrib, getOk_of_ok hc]
    rw [hcontrib]
    omega

/-- `structGo` propagates the first failing emitted field's error
verbatim, whatever separators were notionally added before it. -/
theorem structGo_error (n : Nat) (pre post : List (List Nat × Bool × Value))
    (name : List Nat) (bad : Value) (e : Err)
    (he : Length bad = .error e)
    (h : ∀ f ∈ pre, ∃ c, Length f.2.2 = .ok c) :
    structGo n (pre ++ (name, false, bad) :: post) = .error e := by
  induction pre generalizing n with
  | nil =>
    rw [List.nil_append, structGo]
    simp only [Bool.false_and, Bool.false_eq_true, if_false]
    rw [he]
    rfl
  | cons f t ih =>
    obtain ⟨nm, omitempty, v⟩ := f
    by_cases hsk : (omitempty && isEmptyValue v) = true
    · rw [List.cons_append, structGo, hsk]
      simp only [if_true]
      exact ih n fun f hf => h f (List.mem_cons_of_mem _ hf)
    · obtain ⟨c, hc⟩ := h (nm, omitempty, v) (List.mem_cons_self _ t)
      rw [List.cons_append, structGo, Bool.eq_false_iff.mpr hsk]
      simp only [Bool.false_eq_true, if_false]
      rw [hc]
      simp only [ok_bind]
      exact ih _ fun f hf => h f (List.mem_cons_of_mem _ hf)

/-- Claim C1: for every string `s`, `Length` succeeds and returns 2
(quotes) + the byte count of `s` + 1 extra byte for every byte that is
one of `"`, `\`, `/`, newline, tab, carriage return, vertical tab,
backspace, or form feed; the short-string fast path and the counting
slow path yield identical results for all inputs. -/
theorem claim_C1 (s : List Nat) :
    Length (.vstring s) = .ok (2 + s.length + s.countP isEscapedByte) ∧
    jsonLenString s = jsonLenStringSlow s := by
  have hs := jsonLenString_eq s
  refine ⟨?_, ?_⟩
  · simp only [Length, hs]
  · rw [hs]
    unfold jsonLenStringSlow
    omega

/-- Claim C5: dispatch uses the first matching category in the source's
resolution order; in particular a value advertising both the
override-length capability (`Lengther`) and the produces-own-JSON
capability (`json.Marshaler`) is measured by the override, whose result
is used directly without invoking or verifying the marshaler — and the
remaining capability order is `json.Number`, then `json.Marshaler`,
then `encoding.TextMarshaler`. -/
theorem claim_C5 (num : Option (List Nat))
    (mj mt : Option (Except Err (List Nat))) (k : Nat) (s : List Nat)
    (r rt : Except Err (List Nat)) :
    Length (.vcustom (some k) num mj mt) = .ok k ∧
    Length (.vcustom none (some s) mj mt) = .ok s.length ∧
    Length (.vcustom none none (some r) mt) = r.map List.length ∧
    Length (.vcustom none none none (some rt)) = rt.map jsonLenString := by
  refine ⟨?_, ?_, ?_, ?_⟩ <;> simp [Length]

/-- Claim C6 counterexample: on the three-byte string `"a/b"`
(bytes 97, 47, 98) the code returns 6, not 7: 2 quotes + 3 bytes + 1
escape for the slash. -/
theorem claim_C6_counterexample :
    Length (.vstring [97, 47, 98]) = .ok 6 ∧
    Length (.vstring [97, 47, 98]) ≠ .ok 7 := by
  have h : Length (.vstring [97, 47, 98]) = .ok 6 := by
    simp [Length, jsonLenString, jsonLenStringSlow, escapedBytes]
    rfl
  exact ⟨h, by rw [h]; simp⟩

/-- Claim C6 as amended: `compute_length("a/b")` returns `(6, nil)` —
2 quotes + 3 bytes + 1 extra for the escaped `/`. -/
theorem claim_C6_amended :
    Length (.vstring [97, 47, 98]) = .ok 6 := by
  simp [Length, jsonLenString, jsonLenStringSlow, escapedBytes]
  rfl

/-- Claim C7: for every signed or unsigned integer, `Length` succeeds
and returns the decimal digit count, plus one for the minus sign when
negative; zero has length 1; and `Length` of -123 is 4. -/
theorem claim_C7 (v : Int) (u : Nat) :
    Length (.vint v) = .ok (if v = 0 then 1 else
      (if v < 0 then 1 else 0) + (Nat.digits 10 v.natAbs).length) ∧
    Length (.vuint u) = .ok (if u = 0 then 1 else (Nat.digits 10 u).length) ∧
    Length (.vint (-123)) = .ok 4 := by
  refine ⟨?_, ?_, ?_⟩
  · simp only [Length, jsonLenInt]
    by_cases h0 : v = 0
    · simp [h0]
    · rw [if_neg h0, if_neg h0,
        uintDigitCount_eq v.natAbs (fun hz => h0 (Int.natAbs_eq_zero.mp hz))]
  · simp only [Length, jsonLenUint]
    by_cases h0 : u = 0
    · simp [h0]
    · rw [if_neg h0, if_neg h0, uintDigitCount_eq u h0]
  · simp [Length, jsonLenInt, uintDigitCount]

/-- Claim C8: for every byte sequence `b`, `Length` succeeds and
returns 2 (quotes) + ⌊len(b) * 4 / 3⌋. -/
theorem claim_C8 (b : List Nat) :
    Length (.vbytes b) = .ok (2 + b.length * 4 / 3) := by
  simp [Length, jsonLenBytes]

/-- Claim C2: for every sequence whose elements all measure
successfully, `Length` returns 2 (brackets) + the sum of the element
lengths + (N-1) separators when N>1 and 0 when N≤1, identically on the
`[]interface{}` fast path (`vslice`) and the reflection fallback
(`varray`). -/
theorem claim_C2 (l : List Value)
    (h : ∀ v ∈ l, ∃ c, Length v = .ok c) :
    Length (.vslice l) = .ok (2 + (l.map fun v => getOk (Length v)).sum +
      (if 1 < l.length then l.length - 1 else 0)) ∧
    Length (.varray l) = .ok (2 + (l.map fun v => getOk (Length v)).sum +
      (if 1 < l.length then l.length - 1 else 0)) := by
  constructor
  · simp only [Length, jsonLenSliceInterface]
    rw [sliceSum_ok l h]
    simp only [ok_bind, pure_eq_ok, Except.ok.injEq]
    omega
  · simp only [Length, jsonLenArray]
    rw [arrayGo_ok true l h]
    simp only [ok_bind, pure_eq_ok, Except.ok.injEq, if_true]
    split <;> omega

/-- Witness for C2 at the spec's own example `[1, 2, 3]`: both paths
give 7 = 2 brackets + three 1-digit elements + 2 separators. -/
theorem claim_C2_witness :
    Length (.vslice [.vint 1, .vint 2, .vint 3]) = .ok 7 ∧
    Length (.varray [.vint 1, .vint 2, .vint 3]) = .ok 7 := by
  have h := claim_C2 [.vint 1, .vint 2, .vint 3] (by
    intro v hv
    fin_cases hv <;>
      exact ⟨1, by simp [Length, jsonLenInt, uintDigitCount]⟩)
  obtain ⟨h1, h2⟩ := h
  constructor
  · rw [h1]
    simp [Length, jsonLenInt, uintDigitCount, getOk]
  · rw [h2]
    simp [Length, jsonLenInt, uintDigitCount, getOk]

/-- Claim C3: a field with the omitempty flag set and an empty value
contributes exactly 0 bytes (dropping all such fields leaves the result
unchanged), and when every emitted field's value measures, the record
total is 2 (braces) + per-field (quoted key + colon + value) sums +
(emitted count - 1) separators when more than one field is emitted. -/
theorem claim_C3 (fields : List (List Nat × Bool × Value))
    (h : ∀ f ∈ fields.filter keepField, ∃ c, Length f.2.2 = .ok c) :
    Length (.vstruct fields) = Length (.vstruct (fields.filter keepField)) ∧
    Length (.vstruct fields) = .ok (2 +
      ((fields.filter keepField).map structContrib).sum +
      (if 1 < (fields.filter keepField).length
        then (fields.filter keepField).length - 1 else 0)) := by
  have hfilter : Length (.vstruct fields) =
      Length (.vstruct (fields.filter keepField)) := by
    simp only [Length, jsonLenStruct]
    rw [structGo_filter, structGo_filter 0 (fields.filter keepField)]
  refine ⟨hfilter, ?_⟩
  rw [hfilter]
  simp only [Length, jsonLenStruct]
  rw [structGo_zero (fields.filter keepField)
    (fun f hf => (List.mem_filter.mp hf).2) h]
  simp only [ok_bind, pure_eq_ok, Except.ok.injEq]
  split <;> omega

/-- Witness for C3 at the spec's own example: a record with
`Name string` = "Al" and `Age int omitempty` = 0 measures 13, the
length of `{"Name":"Al"}`, and equals the record with the empty field
dropped. -/
theorem claim_C3_witness :
    Length (.vstruct [([78, 97, 109, 101], false, .vstring [65, 108]),
      ([65, 103, 101], true, .vint 0)]) = .ok 13 := by
  have h := claim_C3 [([78, 97, 109, 101], false, .vstring [65, 108]),
      ([65, 103, 101], true, .vint 0)] (by
    intro f hf
    fin_cases hf
    exact ⟨4, by
      simp [Length, jsonLenString, jsonLenStringSlow, escapedBytes]⟩)
  rw [h.2]
  simp [keepField, isEmptyValue, List.filter, structContrib, getOk,
    Length, jsonLenString, jsonLenStringSlow, escapedBytes]

/-- Claim C4: a nested measurement failure in a sequence (either
path), a mapping (the `map[string]interface{}` fast path and the
reflected map, where a key or a value may fail), or a record aborts
the whole computation and the nested error is returned as-is,
regardless of the failing element's position. -/
theorem claim_C4 (pre post : List Value) (bad : Value) (e : Err)
    (preSI postSI : List (List Nat × Value)) (k : List Nat)
    (preF postF : List (List Nat × Bool × Value)) (name : List Nat)
    (preM postM : List (Value × Value)) (w goodKey : Value) (ck : Nat)
    (he : Length bad = .error e)
    (hpre : ∀ v ∈ pre, ∃ c, Length v = .ok c)
    (hpreSI : ∀ p ∈ preSI, ∃ c, Length p.2 = .ok c)
    (hpreF : ∀ f ∈ preF, ∃ c, Length f.2.2 = .ok c)
    (hpreM : ∀ p ∈ preM, (∃ c, Length p.1 = .ok c) ∧ (∃ c, Length p.2 = .ok c))
    (hgood : Length goodKey = .ok ck) :
    Length (.vslice (pre ++ bad :: post)) = .error e ∧
    Length (.varray (pre ++ bad :: post)) = .error e ∧
    Length (.vmapSI (preSI ++ (k, bad) :: postSI)) = .error e ∧
    Length (.vmapRefl (preM ++ (bad, w) :: postM)) = .error e ∧
    Length (.vmapRefl (preM ++ (goodKey, bad) :: postM)) = .error e ∧
    Length (.vstruct (preF ++ (name, false, bad) :: postF)) = .error e := by
  refine ⟨?_, ?_, ?_, ?_, ?_, ?_⟩
  · simp only [Length, jsonLenSliceInterface]
    rw [sliceSum_error pre post bad e he hpre]
    rfl
  · simp only [Length, jsonLenArray]
    rw [arrayGo_error true pre post bad e he hpre]
    rfl
  · simp only [Length, jsonLenMapStringInterface]
    rw [mapSISum_error preSI postSI k bad e he hpreSI]
    rfl
  · simp only [Length, jsonLenMap]
    rw [mapGo_error_key true preM postM bad w e he hpreM]
    rfl
  · simp only [Length, jsonLenMap]
    rw [mapGo_error_value true preM postM goodKey bad ck e hgood he hpreM]
    rfl
  · simp only [Length, jsonLenStruct]
    rw [structGo_error 0 preF postF name bad e he hpreF]
    rfl

/-- Witness for C4: an unsupported value (a channel, say) in second
position of a two-element sequence, both kinds of map (as a reflected
map key and as a value), and record fails each computation with exactly
that element's error. -/
theorem claim_C4_witness :
    Length (.vslice [.vint 1, .vunsupported "chan int"]) =
      .error (.unsupportedType "chan int") ∧
    Length (.varray [.vint 1, .vunsupported "chan int"]) =
      .error (.unsupportedType "chan int") ∧
    Length (.vmapSI [([97], .vint 1), ([98], .vunsupported "chan int")]) =
      .error (.unsupportedType "chan int") ∧
    Length (.vmapRefl [(.vint 1, .vint 1),
      (.vunsupported "chan int", .vnull)]) =
      .error (.unsupportedType "chan int") ∧
    Length (.vmapRefl [(.vint 1, .vint 1),
      (.vint 2, .vunsupported "chan int")]) =
      .error (.unsupportedType "chan int") ∧
    Length (.vstruct [([97], false, .vint 1),
      ([98], false, .vunsupported "chan int")]) =
      .error (.unsupportedType "chan int") := by
  have h := claim_C4 [.vint 1] [] (.vunsupported "chan int")
    (.unsupportedType "chan int") [([97], .vint 1)] [] [98]
    [([97], false, .vint 1)] [] [98]
    [(.vint 1, .vint 1)] [] .vnull (.vint 2) 1
    (by simp [Length])
    (by intro v hv; fin_cases hv
        exact ⟨1, by simp [Length, jsonLenInt, uintDigitCount]⟩)
    (by intro p hp; fin_cases hp
        exact ⟨1, by simp [Length, jsonLenInt, uintDigitCount]⟩)
    (by intro f hf; fin_cases hf
        exact ⟨1, by simp [Length, jsonLenInt, uintDigitCount]⟩)
    (by intro p hp; fin_cases hp
        exact ⟨⟨1, by simp [Length, jsonLenInt, uintDigitCount]⟩,
          ⟨1, by simp [Length, jsonLenInt, uintDigitCount]⟩⟩)
    (by simp [Length, jsonLenInt, uintDigitCount])
  simpa using h

/-- Claim C9 counterexample: the same two-entry map traversed in the
two possible entry orders — both entries have unsupported values that
fail with different errors — returns the first-traversed entry's
error, so the `(length, error)` result is not independent of the
traversal order. -/
theorem claim_C9_counterexample :
    [([97], Value.vunsupported "chan int"),
     ([98], Value.vunsupported "func()")].Perm
      [([98], Value.vunsupported "func()"),
       ([97], Value.vunsupported "chan int")] ∧
    Length (.vmapSI [([97], .vunsupported "chan int"),
      ([98], .vunsupported "func()")]) =
      .error (.unsupportedType "chan int") ∧
    Length (.vmapSI [([98], .vunsupported "func()"),
      ([97], .vunsupported "chan int")]) =
      .error (.unsupportedType "func()") ∧
    Length (.vmapSI [([97], .vunsupported "chan int"),
      ([98], .vunsupported "func()")]) ≠
      Length (.vmapSI [([98], .vunsupported "func()"),
        ([97], .vunsupported "chan int")]) := by
  have hA : Length (.vmapSI [([97], Value.vunsupported "chan int"),
      ([98], Value.vunsupported "func()")]) =
      .error (.unsupportedType "chan int") := by
    simp [Length, jsonLenMapStringInterface, mapSISum]
  have hB : Length (.vmapSI [([98], Value.vunsupported "func()"),
      ([97], Value.vunsupported "chan int")]) =
      .error (.unsupportedType "func()") := by
    simp [Length, jsonLenMapStringInterface, mapSISum]
  refine ⟨List.Perm.swap _ _ _, hA, hB, ?_⟩
  rw [hA, hB]
  simp

/-- Claim C9 as amended: for a fixed traversal order `Length` is a pure
function of its input; for both map representations a successful
computed length is independent of the entry traversal order, and
whether the computation fails is also order-independent — only the
identity of the reported error may depend on the traversal order. -/
theorem claim_C9 :
    (∀ (l l' : List (List Nat × Value)) (n : Nat), l.Perm l' →
      Length (.vmapSI l) = .ok n → Length (.vmapSI l') = .ok n) ∧
    (∀ (l l' : List (List Nat × Value)) (e : Err), l.Perm l' →
      Length (.vmapSI l) = .error e →
        ∃ e', Length (.vmapSI l') = .error e') ∧
    (∀ (l l' : List (Value × Value)) (n : Nat), l.Perm l' →
      Length (.vmapRefl l) = .ok n → Length (.vmapRefl l') = .ok n) ∧
    (∀ (l l' : List (Value × Value)) (e : Err), l.Perm l' →
      Length (.vmapRefl l) = .error e →
        ∃ e', Length (.vmapRefl l') = .error e') := by
  have hSI : ∀ (l l' : List (List Nat × Value)) (n : Nat), l.Perm l' →
      Length (.vmapSI l) = .ok n → Length (.vmapSI l') = .ok n := by
    intro l l' n hperm h
    simp only [Length, jsonLenMapStringInterface] at h ⊢
    cases hs : mapSISum l with
    | error e => rw [hs] at h; simp at h
    | ok m =>
      rw [hs] at h
      simp only [ok_bind, pure_eq_ok, Except.ok.injEq] at h
      obtain ⟨hall, hm⟩ := mapSISum_eq_ok l m hs
      rw [mapSISum_ok l' fun p hp => hall p (hperm.mem_iff.mpr hp)]
      simp only [ok_bind, pure_eq_ok, Except.ok.injEq]
      rw [← (hperm.map entryLenSI).sum_eq, ← hperm.length_eq, ← hm, h]
  have hRefl : ∀ (l l' : List (Value × Value)) (n : Nat), l.Perm l' →
      Length (.vmapRefl l) = .ok n → Length (.vmapRefl l') = .ok n := by
    intro l l' n hperm h
    simp only [Length, jsonLenMap] at h ⊢
    cases hs : mapGo true l with
    | error e => rw [hs] at h; simp at h
    | ok m =>
      rw [hs] at h
      simp only [ok_bind, pure_eq_ok, Except.ok.injEq] at h
      obtain ⟨hall, hm⟩ := mapGo_eq_ok true l m hs
      rw [mapGo_ok true l' fun p hp => hall p (hperm.mem_iff.mpr hp)]
      simp only [ok_bind, pure_eq_ok, Except.ok.injEq, if_true]
      rw [← (hperm.map entryLenMap).sum_eq, ← hperm.length_eq]
      simp only [if_true] at hm
      rw [← hm, h]
  refine ⟨hSI, ?_, hRefl, ?_⟩
  · intro l l' e hperm h
    cases hres : Length (.vmapSI l') with
    | error e' => exact ⟨e', rfl⟩
    | ok n =>
      exact absurd ((hSI l' l n hperm.symm hres).symm.trans h) (by simp)
  · intro l l' e hperm h
    cases hres : Length (.vmapRefl l') with
    | error e' => exact ⟨e', rfl⟩
    | ok n =>
      exact absurd ((hRefl l' l n hperm.symm hres).symm.trans h) (by simp)

/-- Witness for C9 as amended: swapping the two entries of a concrete
two-entry map (in both representations) leaves the computed length
unchanged, and a failing map still fails after the swap. -/
theorem claim_C9_witness :
    Length (.vmapSI [([98], .vint 22), ([97], .vint 1)]) = .ok 14 ∧
    Length (.vmapRefl [(.vint 2, .vint 22), (.vint 1, .vint 1)]) = .ok 10 ∧
    (∃ e', Length (.vmapSI [([98], .vint 1), ([97], .vunsupported "chan int")]) =
      .error e') := by
  refine ⟨?_, ?_, ?_⟩
  · refine claim_C9.1 [([97], .vint 1), ([98], .vint 22)]
      [([98], .vint 22), ([97], .vint 1)] 14 (List.Perm.swap _ _ _) ?_
    simp [Length, jsonLenMapStringInterface, mapSISum, jsonLenInt,
      uintDigitCount, jsonLenString, jsonLenStringSlow, escapedBytes]
  · refine claim_C9.2.2.1 [(.vint 1, .vint 1), (.vint 2, .vint 22)]
      [(.vint 2, .vint 22), (.vint 1, .vint 1)] 10 (List.Perm.swap _ _ _) ?_
    simp [Length, jsonLenMap, mapGo, jsonLenInt, uintDigitCount]
  · refine claim_C9.2.1 [([97], .vunsupported "chan int"), ([98], .vint 1)]
      [([98], .vint 1), ([97], .vunsupported "chan int")]
      (.unsupportedType "chan int") (List.Perm.swap _ _ _) ?_
    simp [Length, jsonLenMapStringInterface, mapSISum]

/-- Claim C10: a reflected map measures each key by full dispatch, so a
non-string key (an integer, say) contributes its unquoted length — key
12 contributes 2 bytes where the quoted string "12" would contribute 4
— while the per-entry framing (colon, separators, braces) is
unchanged. -/
theorem claim_C10 (l : List (Value × Value))
    (h : ∀ p ∈ l, (∃ c, Length p.1 = .ok c) ∧ (∃ c, Length p.2 = .ok c)) :
    Length (.vmapRefl l) = .ok (2 + (l.map entryLenMap).sum + (l.length - 1)) ∧
    Length (.vint 12) = .ok (jsonLenInt 12) ∧
    jsonLenInt 12 = 2 ∧ jsonLenString [49, 50] = 4 := by
  refine ⟨?_, by simp [Length], ?_, ?_⟩
  · simp only [Length, jsonLenMap]
    rw [mapGo_ok true l h]
    simp only [ok_bind, pure_eq_ok, Except.ok.injEq, if_true]
    omega
  · simp [jsonLenInt, uintDigitCount]
  · simp [jsonLenString, jsonLenStringSlow, escapedBytes]

/-- Witness for C10: the single-entry reflected map `{12: null}`
measures 9 = 2 braces + 2 (the digits of the key) + 1 colon + 4
(`null`). -/
theorem claim_C10_witness :
    Length (.vmapRefl [(.vint 12, .vnull)]) = .ok 9 := by
  have h := claim_C10 [(.vint 12, .vnull)] (by
    intro p hp
    fin_cases hp
    exact ⟨⟨2, by simp [Length, jsonLenInt, uintDigitCount]⟩,
      ⟨4, by simp [Length, jsonLenNull]⟩⟩)
  rw [h.1]
  simp [entryLenMap, getOk, Length, jsonLenInt, uintDigitCount, jsonLenNull]

end Jutil
